import Mathlib

/-!
Verification of the data-access core of the `adequate` repository:

* `lib/db/tracer.go` — a driver-level SQL instrumentation shim
  (`tracedDriver` / `tracedConn` with `ExecContext`, `QueryContext`,
  `Begin`, `BeginTx`, the `log` / `sampled` event pipeline, and the
  helpers `compact` and `maskArgs`);
* `lib/db/migrate.go` — the transactional, versioned schema-migration
  engine (`Migrate`).

Both are embedded shallowly: the Go functions become Lean functions on
explicit state, the effects of the database (exec/query outcomes,
transaction begin/commit failures) are supplied by oracles, and the
structured log calls become values of an explicit event type.
-/

namespace Adequate

/-! ## Tracer model (`lib/db/tracer.go`) -/

/-- Model of a Go `driver.NamedValue`: a name, a 1-based ordinal, and the
argument value (rendered abstractly as a string). -/
structure NamedValue where
  name : String
  ordinal : Int
  value : String
deriving DecidableEq, Repr

/-- Model of the driver-level errors the shim can observe or produce:
`driver.ErrSkip` (the pass-through sentinel) or an arbitrary error with
its message. -/
inductive DrvErr where
  | errSkip : DrvErr
  | mk (msg : String) : DrvErr
deriving DecidableEq, Repr

/-- `err.Error()` of a modelled driver error. -/
def DrvErr.text : DrvErr → String
  | .errSkip => "driver: skip fast-path; continue as if unimplemented"
  | .mk msg => msg

/-- The `Tracer` configuration struct: slow-query threshold in
nanoseconds (`0` = off), argument masking flag, and sampling rate
(`0`/`1` = all, `N` = 1-in-N). -/
structure Tracer where
  SlowThresh : Int
  MaskArgs : Bool
  SampleEvery : Int
deriving DecidableEq, Repr

/-- Rendering of the `args` field passed to the logger by
`maskArgs`: either the fixed `"[masked]"` placeholder or the raw
argument list. -/
inductive ArgsRendering where
  | masked : ArgsRendering
  | raw (args : List NamedValue) : ArgsRendering
deriving DecidableEq, Repr

/-- `func maskArgs(args []driver.NamedValue, mask bool) any` — the
placeholder `"[masked]"` when masking is on, the raw list otherwise. -/
def maskArgs (args : List NamedValue) (mask : Bool) : ArgsRendering :=
  if mask then .masked else .raw args

/-- Go's `unicode.IsSpace` restricted to the characters it accepts
(ASCII whitespace, NEL, NBSP, and the Unicode space runes). -/
def goIsSpace (c : Char) : Bool :=
  c = ' ' ∨ c = '\t' ∨ c = '\n' ∨ c = (Char.ofNat 11) ∨ c = (Char.ofNat 12) ∨
  c = '\r' ∨ c = (Char.ofNat 0x85) ∨ c = (Char.ofNat 0xA0) ∨
  c = (Char.ofNat 0x1680) ∨ (0x2000 ≤ c.toNat ∧ c.toNat ≤ 0x200A) ∨
  c = (Char.ofNat 0x2028) ∨ c = (Char.ofNat 0x2029) ∨
  c = (Char.ofNat 0x202F) ∨ c = (Char.ofNat 0x205F) ∨ c = (Char.ofNat 0x3000)

/-- `strings.ReplaceAll(s, "\n", " ")` on a character list: the pattern
is a single character, so every `'\n'` becomes `' '`. -/
def goReplaceNl (cs : List Char) : List Char :=
  cs.map fun c => if c = '\n' then ' ' else c

theorem dropWhile_length_le {α : Type} (p : α → Bool) (l : List α) :
    (l.dropWhile p).length ≤ l.length := by
  induction l with
  | nil => simp [List.dropWhile]
  | cons a l ih =>
    simp only [List.dropWhile]
    split
    · exact Nat.le_succ_of_le ih
    · simp

/-- `strings.Fields`: the maximal runs of non-whitespace characters of
the input, in order. -/
def goFields (cs : List Char) : List (List Char) :=
  match cs with
  | [] => []
  | c :: rest =>
    if goIsSpace c then goFields rest
    else (c :: rest.takeWhile (fun d => ¬ goIsSpace d)) ::
      goFields (rest.dropWhile (fun d => ¬ goIsSpace d))
  termination_by cs.length
  decreasing_by
    · simp
    · simp only [List.length_cons]
      exact Nat.lt_succ_of_le (dropWhile_length_le _ _)

/-- `strings.Join(ws, " ")` on character lists. -/
def goJoinSpace : List (List Char) → List Char
  | [] => []
  | [w] => w
  | w :: ws => w ++ ' ' :: goJoinSpace ws

/-- `func compact(s string) string` — replace newlines by spaces, then
split into fields and re-join with single spaces. -/
def compactC (cs : List Char) : List Char :=
  goJoinSpace (goFields (goReplaceNl cs))

/-- `compact` at the `String` level. -/
def compact (s : String) : String :=
  (compactC s.toList).asString

/-- A structured log event emitted by the tracer: level (`error` or
`warn`), message, operation kind, (compacted) SQL text, the argument
rendering (error events only), duration, and the error text (error
events only). -/
structure LogEvent where
  isError : Bool
  msg : String
  kind : String
  sql : String
  args : Option ArgsRendering
  dur : Int
  errText : Option String
deriving DecidableEq, Repr

namespace tracedConn

/-- `func (c *tracedConn) sampled() bool` acting on the explicit
per-connection counter `n` (a `uint64`, hence the `% 2^64`): if
`SampleEvery ≤ 1` every event is sampled and the counter is untouched;
otherwise the counter is incremented and the event is sampled iff the
new counter value is divisible by `SampleEvery`. Returns the decision
and the new counter. -/
def sampled (t : Tracer) (n : Nat) : Bool × Nat :=
  if t.SampleEvery ≤ 1 then (true, n)
  else
    let n' := (n + 1) % 2 ^ 64
    (n' % t.SampleEvery.toNat == 0, n')

/-- `func (c *tracedConn) log(...)` — emits at most one event and may
advance the sampling counter. `t = none` models a nil `*Tracer`. -/
def log (t : Option Tracer) (n : Nat) (kind sqlq : String)
    (args : List NamedValue) (dur : Int) (err : Option DrvErr) :
    List LogEvent × Nat :=
  match t with
  | none => ([], n)
  | some t =>
    let sqlc := compact sqlq
    match err with
    | some e =>
      ([⟨true, "db.query.error", kind, sqlc, some (maskArgs args t.MaskArgs),
         dur, some e.text⟩], n)
    | none =>
      if t.SlowThresh ≤ 0 ∨ dur < t.SlowThresh then ([], n)
      else
        match sampled t n with
        | (true, n') =>
          ([⟨false, "db.query.slow", kind, sqlc, none, dur, none⟩], n')
        | (false, n') => ([], n')

end tracedConn

/-- Model of Go `driver.TxOptions`. -/
structure TxOptions where
  isolation : Int
  readOnly : Bool
deriving DecidableEq, Repr

/-- Behaviour of the wrapped (base) driver connection, abstracted over
the result (`Res`), row-set (`Rows`) and transaction (`TxT`) types. The
`...Supported` flags model whether the dynamic interface assertions
(`driver.ExecerContext`, `driver.QueryerContext`,
`driver.ConnBeginTx`) succeed; the operation fields give the pair the
base call would return. -/
structure BaseConn (Res Rows TxT : Type) where
  execSupported : Bool
  exec : String → List NamedValue → Option Res × Option DrvErr
  querySupported : Bool
  query : String → List NamedValue → Option Rows × Option DrvErr
  beginTxSupported : Bool
  beginTx : TxOptions → Option TxT × Option DrvErr
  begin : Option TxT × Option DrvErr

namespace tracedConn

/-- `func (c *tracedConn) Begin() (driver.Tx, error)` — the body is
literally `return nil, driver.ErrSkip`; it does not touch `c.base`. -/
def Begin {Res Rows TxT : Type} (_base : BaseConn Res Rows TxT) :
    Option TxT × Option DrvErr :=
  (none, some .errSkip)

/-- `func (c *tracedConn) BeginTx(ctx, opts)` — delegate to the base
connection when it implements `driver.ConnBeginTx`, otherwise return
`(nil, driver.ErrSkip)`. -/
def BeginTx {Res Rows TxT : Type} (base : BaseConn Res Rows TxT)
    (opts : TxOptions) : Option TxT × Option DrvErr :=
  if base.beginTxSupported then base.beginTx opts
  else (none, some .errSkip)

/-- `func (c *tracedConn) ExecContext(...)`. `dur` is the elapsed time
the clock reports for the base call. Returns the (result, error) pair
handed back to the caller, the emitted events, and the new sampling
counter. -/
def ExecContext {Res Rows TxT : Type} (base : BaseConn Res Rows TxT)
    (t : Option Tracer) (n : Nat) (dur : Int) (q : String)
    (args : List NamedValue) :
    (Option Res × Option DrvErr) × List LogEvent × Nat :=
  if ¬ base.execSupported then ((none, some .errSkip), [], n)
  else
    let (res, err) := base.exec q args
    let (evs, n') := log t n "exec" q args dur err
    ((res, err), evs, n')

/-- `func (c *tracedConn) QueryContext(...)`. -/
def QueryContext {Res Rows TxT : Type} (base : BaseConn Res Rows TxT)
    (t : Option Tracer) (n : Nat) (dur : Int) (q : String)
    (args : List NamedValue) :
    (Option Rows × Option DrvErr) × List LogEvent × Nat :=
  if ¬ base.querySupported then ((none, some .errSkip), [], n)
  else
    let (rows, err) := base.query q args
    let (evs, n') := log t n "query" q args dur err
    ((rows, err), evs, n')

end tracedConn

/-- One observed driver call, as fed to `tracedConn.log`: operation
kind, SQL text, arguments, elapsed duration, and the outcome error. -/
structure CallRec where
  kind : String
  sql : String
  args : List NamedValue
  dur : Int
  err : Option DrvErr
deriving DecidableEq, Repr

/-- Run a sequence of calls through `tracedConn.log` on one connection,
threading the sampling counter, and collect every emitted event. -/
def runLog (t : Option Tracer) (n : Nat) : List CallRec → List LogEvent × Nat
  | [] => ([], n)
  | c :: cs =>
    let (evs, n') := tracedConn.log t n c.kind c.sql c.args c.dur c.err
    let (evs', n'') := runLog t n' cs
    (evs ++ evs', n'')

/-! ## Migration engine model (`lib/db/migrate.go`) -/

/-- `type migration struct { v int; name string; sql string }`. -/
structure migration where
  v : Int
  name : String
  sql : String
deriving DecidableEq, Repr

/-- One directory entry as returned by `fs.ReadDir(dir, "migrations")`:
its name, whether it is a sub-directory, the result of
`Open`/`io.ReadAll` on it (`readErr = some msg` models a failing read),
and its content. -/
structure Entry where
  name : String
  isDir : Bool
  readErr : Option String
  content : String
deriving DecidableEq, Repr

/-- Go `%q` rendering of a string (escaping elided: none of the names
the development evaluates on need escapes). -/
def goQuote (s : String) : String := "\"" ++ s ++ "\""

/-- `strings.SplitN(name, "_", 2)[0]`: the characters before the first
`'_'` (the whole name when it has no `'_'`). -/
def sepPrefix (s : String) : List Char :=
  s.toList.takeWhile (fun c => c ≠ '_')

/-- Digits-to-number accumulator for `goAtoi`. -/
def digitsVal (ds : List Char) : Nat :=
  ds.foldl (fun acc d => 10 * acc + (d.toNat - '0'.toNat)) 0

/-- `strconv.Atoi` on a 64-bit platform: optional sign, then a nonempty
run of decimal digits, with the result required to fit in `int64`.
Errors carry Go's error-message suffix. -/
def goAtoi (cs : List Char) : Except String Int :=
  let (sign, ds) : Int × List Char :=
    match cs with
    | '+' :: r => (1, r)
    | '-' :: r => (-1, r)
    | r => (1, r)
  if ds.isEmpty then .error "invalid syntax"
  else if ds.all Char.isDigit then
    let val : Int := sign * (digitsVal ds : Nat)
    if -(2 ^ 63) ≤ val ∧ val < 2 ^ 63 then .ok val
    else .error "value out of range"
  else .error "invalid syntax"

/-- `strings.HasPrefix(name, ".")`. -/
def startsDot (s : String) : Bool :=
  match s.toList with
  | c :: _ => c = '.'
  | [] => false

/-- One iteration of `Migrate`'s discovery loop over `entries`:
`seen` is the `seen` map (as an association list, most recent first)
and `acc` the accumulated `ms` slice. Skips directories and hidden
names; fails on an unparsable version prefix, a duplicate version, or
a failing read; otherwise registers the version and appends the
migration. -/
def discoverStep (seen : List (Int × String)) (acc : List migration)
    (e : Entry) : Except String (List (Int × String) × List migration) :=
  if e.isDir then .ok (seen, acc)
  else if startsDot e.name then .ok (seen, acc)
  else
    match goAtoi (sepPrefix e.name) with
    | .error msg => .error ("migrate: bad name " ++ goQuote e.name ++ ": " ++
        "strconv.Atoi: parsing " ++ goQuote ((sepPrefix e.name).asString) ++
        ": " ++ msg)
    | .ok v =>
      match (seen.lookup v : Option String) with
      | some prev => .error ("migrate: duplicate version " ++ toString v ++
          ": " ++ goQuote prev ++ " and " ++ goQuote e.name)
      | none =>
        match e.readErr with
        | some msg => .error ("migrate: read " ++ goQuote e.name ++ ": " ++ msg)
        | none => .ok ((v, e.name) :: seen, acc ++ [⟨v, e.name, e.content⟩])

/-- The discovery loop of `Migrate`, returning the final `(seen, ms)`
state on success. -/
def discoverState : List Entry → List (Int × String) → List migration →
    Except String (List (Int × String) × List migration)
  | [], seen, acc => .ok (seen, acc)
  | e :: rest, seen, acc =>
    match discoverStep seen acc e with
    | .error msg => .error msg
    | .ok (seen', acc') => discoverState rest seen' acc'

/-- The discovered migration slice `ms` of a run of `Migrate` over
`entries`. -/
def discover (entries : List Entry) : Except String (List migration) :=
  (discoverState entries [] []).map Prod.snd

/-- `sort.Slice(ms, func(i, j int) bool { return ms[i].v < ms[j].v })`:
insertion into an ascending-by-version list. Discovered versions are
pairwise distinct, so any correct sort produces the same list. -/
def insertByV (m : migration) : List migration → List migration
  | [] => [m]
  | x :: xs => if m.v ≤ x.v then m :: x :: xs else x :: insertByV m xs

/-- Sort the migration slice ascending by version. -/
def sortMs : List migration → List migration
  | [] => []
  | m :: ms => insertByV m (sortMs ms)

/-- `SELECT COALESCE(MAX(version), 0) FROM schema_migrations`: the
maximum of the recorded versions, `0` when the ledger is empty. -/
def maxVer : List Int → Int
  | [] => 0
  | x :: xs => xs.foldl max x

/-- The persisted database state seen by the migration engine: whether
the `schema_migrations` ledger table exists, the recorded versions (in
insertion order), and the abstract schema — the list of migration SQL
bodies successfully executed against it. -/
structure DBState where
  ledgerExists : Bool
  ledger : List Int
  schema : List String
deriving DecidableEq, Repr

/-- Failure oracle for the effectful steps of `Migrate`: each field is
`none` when the corresponding operation succeeds, `some msg` when it
fails with message `msg`. `execErr` decides, per SQL body, whether
executing a migration's statements fails; `recordErr` likewise for the
ledger `INSERT` of a version. -/
structure Oracle where
  readDirErr : Option String
  beginErr : Option String
  createErr : Option String
  readVerErr : Option String
  execErr : String → Option String
  recordErr : Int → Option String
  commitErr : Option String

/-- The apply loop of `Migrate` over the sorted slice, acting on the
transaction-local state: skip units with `v ≤ cur`; otherwise execute
the body (extending the schema), then record the version in the
ledger. Returns the loop outcome together with the units logged as
applied (`db.migrate.applied`), in order. -/
def applyLoop (o : Oracle) (cur : Int) :
    List migration → DBState → (Except String DBState) × List migration
  | [], st => (.ok st, [])
  | m :: rest, st =>
    if m.v ≤ cur then applyLoop o cur rest st
    else
      match o.execErr m.sql with
      | some msg => (.error ("migrate: exec " ++ toString m.v ++ " (" ++
          m.name ++ "): " ++ msg), [])
      | none =>
        let st1 : DBState := { st with schema := st.schema ++ [m.sql] }
        match o.recordErr m.v with
        | some msg => (.error ("migrate: record " ++ toString m.v ++ ": " ++
            msg), [])
        | none =>
          let st2 : DBState := { st1 with ledger := st1.ledger ++ [m.v] }
          let (r, tr) := applyLoop o cur rest st2
          (r, m :: tr)

/-- `func Migrate(ctx, db, dir) error`, shallowly embedded. Takes the
failure oracle, the directory listing (in `fs.ReadDir` order), and the
persisted database state; returns the error result, the persisted
state after the call (the deferred `tx.Rollback()` restores the input
state on every failure path, `tx.Commit()` persists the
transaction-local state on success), and the units logged as applied. -/
def Migrate (o : Oracle) (entries : List Entry) (db : DBState) :
    Except String Unit × DBState × List migration :=
  match o.readDirErr with
  | some msg => (.error ("migrate: readdir: " ++ msg), db, [])
  | none =>
  match discover entries with
  | .error e => (.error e, db, [])
  | .ok ms0 =>
  let ms := sortMs ms0
  match o.beginErr with
  | some msg => (.error ("migrate: begin: " ++ msg), db, [])
  | none =>
  match o.createErr with
  | some msg => (.error ("migrate: create table: " ++ msg), db, [])
  | none =>
  let st : DBState := { db with ledgerExists := true }
  match o.readVerErr with
  | some msg => (.error ("migrate: current version: " ++ msg), db, [])
  | none =>
  let cur := maxVer st.ledger
  match applyLoop o cur ms st with
  | (.error e, tr) => (.error e, db, tr)
  | (.ok st1, tr) =>
    match o.commitErr with
    | some msg => (.error ("migrate: commit: " ++ msg), db, tr)
    | none => (.ok (), st1, tr)

/-! ## Helper lemmas: migration engine -/

theorem foldl_max_init : ∀ (l : List Int) (a : Int), a ≤ l.foldl max a := by
  intro l
  induction l with
  | nil => intro a; simp
  | cons b l ih =>
    intro a
    calc a ≤ max a b := le_max_left a b
      _ ≤ l.foldl max (max a b) := ih (max a b)

theorem foldl_max_mem : ∀ (l : List Int) (a x : Int), x ∈ l → x ≤ l.foldl max a := by
  intro l
  induction l with
  | nil => intro a x hx; simp at hx
  | cons b l ih =>
    intro a x hx
    rcases List.mem_cons.mp hx with h | h
    · subst h
      calc x ≤ max a x := le_max_right a x
        _ ≤ l.foldl max (max a x) := foldl_max_init l _
    · exact ih (max a b) x h

theorem foldl_max_attained : ∀ (l : List Int) (a : Int),
    l.foldl max a = a ∨ l.foldl max a ∈ l := by
  intro l
  induction l with
  | nil => intro a; left; rfl
  | cons b l ih =>
    intro a
    rcases ih (max a b) with h | h
    · rcases max_choice a b with hm | hm
      · left; simpa [hm] using h
      · right; simp only [List.foldl_cons]; rw [h, hm]; exact List.mem_cons_self b l
    · right; exact List.mem_cons_of_mem b h

theorem mem_le_maxVer {x : Int} {l : List Int} (h : x ∈ l) : x ≤ maxVer l := by
  cases l with
  | nil => simp at h
  | cons b l =>
    rcases List.mem_cons.mp h with h | h
    · subst h; exact foldl_max_init l x
    · exact foldl_max_mem l b x h

theorem maxVer_attained : ∀ (l : List Int), l = [] ∨ maxVer l ∈ l := by
  intro l
  cases l with
  | nil => left; rfl
  | cons b l =>
    right
    rcases foldl_max_attained l b with h | h
    · rw [maxVer, h]; exact List.mem_cons_self b l
    · exact List.mem_cons_of_mem b h

theorem applyLoop_ok (o : Oracle) (cur : Int) :
    ∀ (ms : List migration) (st st' : DBState) (tr : List migration),
    applyLoop o cur ms st = (.ok st', tr) →
    st'.ledgerExists = st.ledgerExists ∧
    st'.ledger = st.ledger ++ tr.map migration.v ∧
    st'.schema = st.schema ++ tr.map migration.sql ∧
    tr = ms.filter (fun m => decide (cur < m.v)) ∧
    (∀ m ∈ tr, o.execErr m.sql = none ∧ o.recordErr m.v = none) := by
  intro ms
  induction ms with
  | nil =>
    intro st st' tr h
    simp only [applyLoop, Prod.mk.injEq, Except.ok.injEq] at h
    obtain ⟨h1, h2⟩ := h
    subst h1
    simp [← h2]
  | cons m rest ih =>
    intro st st' tr h
    simp only [applyLoop] at h
    by_cases hle : m.v ≤ cur
    · rw [if_pos hle] at h
      have hres := ih st st' tr h
      have hfilt : (decide (cur < m.v)) = false := by
        simp only [decide_eq_false_iff_not, not_lt]; exact hle
      simpa [List.filter_cons, hfilt] using hres
    · rw [if_neg hle] at h
      cases hexec : o.execErr m.sql with
      | some msg => simp [hexec] at h
      | none =>
        simp only [hexec] at h
        cases hrec : o.recordErr m.v with
        | some msg => simp [hrec] at h
        | none =>
          simp only [hrec] at h
          rcases htr : applyLoop o cur rest
              { st with schema := st.schema ++ [m.sql],
                        ledger := st.ledger ++ [m.v] } with ⟨r, tr'⟩
          simp only [htr, Prod.mk.injEq] at h
          obtain ⟨h1, h2⟩ := h
          subst h1
          obtain ⟨e1, e2, e3, e4, e5⟩ := ih _ st' tr' htr
          have hfilt : (decide (cur < m.v)) = true := by
            simp only [decide_eq_true_eq]; exact lt_of_not_le hle
          refine ⟨by simpa using e1, ?_, ?_, ?_, ?_⟩
          · rw [← h2]; simpa [List.append_assoc] using e2
          · rw [← h2]; simpa [List.append_assoc] using e3
          · rw [← h2, List.filter_cons, hfilt, e4]; simp
          · intro x hx
            rw [← h2] at hx
            rcases List.mem_cons.mp hx with hx | hx
            · subst hx; exact ⟨hexec, hrec⟩
            · exact e5 x hx

theorem applyLoop_skip (o : Oracle) (cur : Int) :
    ∀ (ms : List migration) (st : DBState), (∀ m ∈ ms, m.v ≤ cur) →
    applyLoop o cur ms st = (.ok st, []) := by
  intro ms
  induction ms with
  | nil => intro st _; rfl
  | cons m rest ih =>
    intro st hall
    simp only [applyLoop]
    rw [if_pos (hall m (List.mem_cons_self m rest))]
    exact ih st (fun x hx => hall x (List.mem_cons_of_mem m hx))

theorem mem_insertByV {x m : migration} :
    ∀ {l : List migration}, x ∈ insertByV m l ↔ x = m ∨ x ∈ l := by
  intro l
  induction l with
  | nil => simp [insertByV]
  | cons y ys ih =>
    simp only [insertByV]
    split
    · simp
    · simp only [List.mem_cons, ih]
      tauto

theorem insertByV_perm (m : migration) :
    ∀ (l : List migration), List.Perm (insertByV m l) (m :: l) := by
  intro l
  induction l with
  | nil => exact List.Perm.refl _
  | cons y ys ih =>
    simp only [insertByV]
    split
    · exact List.Perm.refl _
    · exact (List.Perm.cons y ih).trans (List.Perm.swap m y ys)

theorem sortMs_perm : ∀ (l : List migration), List.Perm (sortMs l) l := by
  intro l
  induction l with
  | nil => exact List.Perm.refl _
  | cons m ms ih =>
    exact (insertByV_perm m (sortMs ms)).trans (List.Perm.cons m ih)

theorem pairwise_insertByV (m : migration) :
    ∀ (l : List migration), List.Pairwise (fun a b => a.v ≤ b.v) l →
    List.Pairwise (fun a b => a.v ≤ b.v) (insertByV m l) := by
  intro l
  induction l with
  | nil => intro _; simp [insertByV]
  | cons y ys ih =>
    intro hp
    rcases List.pairwise_cons.mp hp with ⟨hy, hys⟩
    simp only [insertByV]
    split
    · rename_i hmy
      refine List.pairwise_cons.mpr ⟨?_, hp⟩
      intro b hb
      rcases List.mem_cons.mp hb with hb | hb
      · subst hb; exact hmy
      · exact le_trans hmy (hy b hb)
    · rename_i hmy
      refine List.pairwise_cons.mpr ⟨?_, ih hys⟩
      intro b hb
      rcases mem_insertByV.mp hb with hb | hb
      · subst hb; exact le_of_lt (lt_of_not_le hmy)
      · exact hy b hb

theorem sortMs_pairwise : ∀ (l : List migration),
    List.Pairwise (fun a b => a.v ≤ b.v) (sortMs l) := by
  intro l
  induction l with
  | nil => simp [sortMs]
  | cons m ms ih => exact pairwise_insertByV m (sortMs ms) ih

theorem discoverState_append : ∀ (l1 l2 : List Entry) (seen : List (Int × String))
    (acc : List migration),
    discoverState (l1 ++ l2) seen acc =
      match discoverState l1 seen acc with
      | .error e => .error e
      | .ok (s, a) => discoverState l2 s a := by
  intro l1
  induction l1 with
  | nil => intro l2 seen acc; rfl
  | cons e rest ih =>
    intro l2 seen acc
    simp only [List.cons_append, discoverState]
    cases discoverStep seen acc e with
    | error msg => rfl
    | ok p => exact ih l2 p.1 p.2

theorem discoverStep_ok_inv {seen : List (Int × String)} {acc : List migration}
    {e : Entry} {p : List (Int × String) × List migration}
    (h : discoverStep seen acc e = .ok p) :
    p = (seen, acc) ∨
    ∃ v, goAtoi (sepPrefix e.name) = .ok v ∧
      (seen.lookup v : Option String) = none ∧ e.readErr = none ∧
      p = ((v, e.name) :: seen, acc ++ [⟨v, e.name, e.content⟩]) := by
  unfold discoverStep at h
  by_cases hdir : e.isDir = true
  · rw [if_pos hdir] at h
    left
    injection h with h2
    exact h2.symm
  · rw [if_neg hdir] at h
    by_cases hdot : startsDot e.name = true
    · rw [if_pos hdot] at h
      left
      injection h with h2
      exact h2.symm
    · rw [if_neg hdot] at h
      cases hat : goAtoi (sepPrefix e.name) with
      | error msg => simp [hat] at h
      | ok v =>
        simp only [hat] at h
        cases hlk : (seen.lookup v : Option String) with
        | some prev => simp [hlk] at h
        | none =>
          simp only [hlk] at h
          cases hre : e.readErr with
          | some msg => simp [hre] at h
          | none =>
            simp only [hre] at h
            right
            refine ⟨v, rfl, hlk, rfl, ?_⟩
            injection h with h2
            exact h2.symm

theorem discoverState_nodup : ∀ (entries : List Entry) (seen : List (Int × String))
    (acc : List migration) (out : List (Int × String) × List migration),
    discoverState entries seen acc = .ok out →
    (∀ w ∈ acc.map migration.v, (seen.lookup w).isSome) →
    (acc.map migration.v).Nodup →
    (out.2.map migration.v).Nodup := by
  intro entries
  induction entries with
  | nil =>
    intro seen acc out h hcov hnd
    simp only [discoverState, Except.ok.injEq] at h
    subst h
    exact hnd
  | cons e rest ih =>
    intro seen acc out h hcov hnd
    simp only [discoverState] at h
    cases hstep : discoverStep seen acc e with
    | error msg => simp [hstep] at h
    | ok p =>
      rcases p with ⟨seen', acc'⟩
      simp only [hstep] at h
      rcases discoverStep_ok_inv hstep with hsk | ⟨v, hat, hlk, hre, hp⟩
      · injection hsk with hs1 hs2
        subst hs1; subst hs2
        exact ih _ _ out h hcov hnd
      · injection hp with hs1 hs2
        subst hs1; subst hs2
        have hvnot : v ∉ acc.map migration.v := by
          intro hv
          have := hcov v hv
          rw [hlk] at this
          simp at this
        refine ih _ _ out h ?_ ?_
        · intro w hw
          simp only [List.map_append, List.map_cons, List.map_nil,
            List.mem_append, List.mem_cons] at hw
          rcases hw with hw | hw
          · have hws := hcov w hw
            by_cases hwv : w = v
            · subst hwv
              exact absurd hw hvnot
            · have hbe : (w == v) = false := beq_eq_false_iff_ne.mpr hwv
              simp only [List.lookup, hbe]
              exact hws
          · simp only [List.not_mem_nil, or_false] at hw
            subst hw
            simp [List.lookup]
        · simp only [List.map_append, List.map_cons, List.map_nil]
          simp [List.nodup_append, hnd, hvnot]

theorem discover_nodup {entries : List Entry} {ms : List migration}
    (h : discover entries = .ok ms) : (ms.map migration.v).Nodup := by
  unfold discover at h
  cases hst : discoverState entries [] [] with
  | error e => rw [hst] at h; cases h
  | ok p =>
    rw [hst] at h
    simp only [Except.map] at h
    cases h
    exact discoverState_nodup entries [] [] p hst (by simp) (by simp)

theorem strExt {a b : String} (h : a.data = b.data) : a = b := by
  cases a
  cases b
  simp only at h
  rw [h]

theorem discoverStep_error_prefix {seen : List (Int × String)} {acc : List migration}
    {e : Entry} {msg : String} (h : discoverStep seen acc e = .error msg) :
    ∃ rest, msg = "migrate: " ++ rest := by
  unfold discoverStep at h
  by_cases hdir : e.isDir = true
  · rw [if_pos hdir] at h; cases h
  · rw [if_neg hdir] at h
    by_cases hdot : startsDot e.name = true
    · rw [if_pos hdot] at h; cases h
    · rw [if_neg hdot] at h
      cases hat : goAtoi (sepPrefix e.name) with
      | error m =>
        simp only [hat, Except.error.injEq] at h
        refine ⟨"bad name " ++ goQuote e.name ++ ": " ++ "strconv.Atoi: parsing " ++
          goQuote ((sepPrefix e.name).asString) ++ ": " ++ m, ?_⟩
        rw [← h]
        exact strExt (by simp [String.data_append, List.append_assoc])
      | ok v =>
        simp only [hat] at h
        cases hlk : (seen.lookup v : Option String) with
        | some prev =>
          simp only [hlk, Except.error.injEq] at h
          refine ⟨"duplicate version " ++ toString v ++ ": " ++ goQuote prev ++
            " and " ++ goQuote e.name, ?_⟩
          rw [← h]
          exact strExt (by simp [String.data_append, List.append_assoc])
        | none =>
          simp only [hlk] at h
          cases hre : e.readErr with
          | some m =>
            simp only [hre, Except.error.injEq] at h
            refine ⟨"read " ++ goQuote e.name ++ ": " ++ m, ?_⟩
            rw [← h]
            exact strExt (by simp [String.data_append, List.append_assoc])
          | none => simp only [hre] at h; cases h

theorem discoverState_error_prefix : ∀ (entries : List Entry)
    (seen : List (Int × String)) (acc : List migration) (msg : String),
    discoverState entries seen acc = .error msg →
    ∃ rest, msg = "migrate: " ++ rest := by
  intro entries
  induction entries with
  | nil => intro seen acc msg h; cases h
  | cons e rest ih =>
    intro seen acc msg h
    simp only [discoverState] at h
    cases hstep : discoverStep seen acc e with
    | error m =>
      simp only [hstep, Except.error.injEq] at h
      subst h
      exact discoverStep_error_prefix hstep
    | ok p =>
      rcases p with ⟨seen', acc'⟩
      simp only [hstep] at h
      exact ih seen' acc' msg h

theorem applyLoop_error_prefix (o : Oracle) (cur : Int) :
    ∀ (ms : List migration) (st : DBState) (msg : String) (tr : List migration),
    applyLoop o cur ms st = (.error msg, tr) →
    ∃ rest, msg = "migrate: " ++ rest := by
  intro ms
  induction ms with
  | nil =>
    intro st msg tr h
    simp only [applyLoop, Prod.mk.injEq] at h
    exact absurd h.1 (by simp)
  | cons m rest ih =>
    intro st msg tr h
    simp only [applyLoop] at h
    by_cases hle : m.v ≤ cur
    · rw [if_pos hle] at h
      exact ih st msg tr h
    · rw [if_neg hle] at h
      cases hexec : o.execErr m.sql with
      | some em =>
        simp only [hexec, Prod.mk.injEq, Except.error.injEq] at h
        refine ⟨"exec " ++ toString m.v ++ " (" ++ m.name ++ "): " ++ em, ?_⟩
        rw [← h.1]
        exact strExt (by simp [String.data_append, List.append_assoc])
      | none =>
        simp only [hexec] at h
        cases hrec : o.recordErr m.v with
        | some rm =>
          simp only [hrec, Prod.mk.injEq, Except.error.injEq] at h
          refine ⟨"record " ++ toString m.v ++ ": " ++ rm, ?_⟩
          rw [← h.1]
          exact strExt (by simp [String.data_append, List.append_assoc])
        | none =>
          simp only [hrec] at h
          rcases htr : applyLoop o cur rest
              { st with schema := st.schema ++ [m.sql],
                        ledger := st.ledger ++ [m.v] } with ⟨r, tr'⟩
          simp only [htr, Prod.mk.injEq] at h
          cases r with
          | error em => exact ih _ msg tr' (by rw [htr, h.1])
          | ok st1 => exact absurd h.1 (by simp)

/-! ## Claim theorems -/

/-- C1: For every migration run, if any step fails — in particular any
step after the transaction begins (ledger-table creation, reading the
current version, executing a unit's SQL body, recording its version, or
the commit itself) — `Migrate` returns a descriptive error (prefixed
`"migrate: "`) and the persisted database state is exactly the state
before the run: no ledger record and no schema change from that run
persists. Either all pending migrations in the run apply, or none do. -/
theorem migrate_error_rolls_back (o : Oracle) (entries : List Entry)
    (db db' : DBState) (e : String) (tr : List migration)
    (h : Migrate o entries db = (.error e, db', tr)) :
    db' = db ∧ ∃ rest, e = "migrate: " ++ rest := by
  unfold Migrate at h
  cases hrd : o.readDirErr with
  | some msg =>
    simp only [hrd, Prod.mk.injEq, Except.error.injEq] at h
    refine ⟨h.2.1.symm, "readdir: " ++ msg, ?_⟩
    rw [← h.1]
    exact strExt (by simp [String.data_append, List.append_assoc])
  | none =>
  simp only [hrd] at h
  cases hdis : discover entries with
  | error de =>
    simp only [hdis, Prod.mk.injEq, Except.error.injEq] at h
    refine ⟨h.2.1.symm, ?_⟩
    rw [← h.1]
    unfold discover at hdis
    cases hst : discoverState entries [] [] with
    | error m =>
      rw [hst] at hdis
      simp only [Except.map, Except.error.injEq] at hdis
      subst hdis
      exact discoverState_error_prefix entries [] [] _ hst
    | ok p => rw [hst] at hdis; simp [Except.map] at hdis
  | ok ms0 =>
  simp only [hdis] at h
  cases hbg : o.beginErr with
  | some msg =>
    simp only [hbg, Prod.mk.injEq, Except.error.injEq] at h
    refine ⟨h.2.1.symm, "begin: " ++ msg, ?_⟩
    rw [← h.1]
    exact strExt (by simp [String.data_append, List.append_assoc])
  | none =>
  simp only [hbg] at h
  cases hcr : o.createErr with
  | some msg =>
    simp only [hcr, Prod.mk.injEq, Except.error.injEq] at h
    refine ⟨h.2.1.symm, "create table: " ++ msg, ?_⟩
    rw [← h.1]
    exact strExt (by simp [String.data_append, List.append_assoc])
  | none =>
  simp only [hcr] at h
  cases hrv : o.readVerErr with
  | some msg =>
    simp only [hrv, Prod.mk.injEq, Except.error.injEq] at h
    refine ⟨h.2.1.symm, "current version: " ++ msg, ?_⟩
    rw [← h.1]
    exact strExt (by simp [String.data_append, List.append_assoc])
  | none =>
  simp only [hrv] at h
  rcases hal : applyLoop o (maxVer { db with ledgerExists := true }.ledger)
      (sortMs ms0) { db with ledgerExists := true } with ⟨r, tr'⟩
  simp only [hal] at h
  cases r with
  | error ae =>
    simp only [Prod.mk.injEq, Except.error.injEq] at h
    refine ⟨h.2.1.symm, ?_⟩
    rw [← h.1]
    exact applyLoop_error_prefix o _ (sortMs ms0) _ ae tr' hal
  | ok st1 =>
    cases hcm : o.commitErr with
    | some msg =>
      simp only [hcm, Prod.mk.injEq, Except.error.injEq] at h
      refine ⟨h.2.1.symm, "commit: " ++ msg, ?_⟩
      rw [← h.1]
      exact strExt (by simp [String.data_append, List.append_assoc])
    | none => simp only [hcm, Prod.mk.injEq] at h; exact absurd h.1 (by simp)

/-- An oracle on which every database operation succeeds. -/
def oracleOk : Oracle :=
  ⟨none, none, none, none, fun _ => none, fun _ => none, none⟩

/-- An oracle on which executing the SQL body `"BAD"` fails and
everything else succeeds. -/
def oracleExecFail : Oracle :=
  ⟨none, none, none, none,
   fun s => if s = "BAD" then some "syntax error" else none,
   fun _ => none, none⟩

/-- A two-unit migration set whose second unit's body fails on
`oracleExecFail`. -/
def entriesTwo : List Entry :=
  [⟨"001_init.sql", false, none, "CREATE TABLE users;"⟩,
   ⟨"002_bad.sql", false, none, "BAD"⟩]

/-- The empty persisted database state. -/
def dbEmpty : DBState := ⟨false, [], []⟩

/-- Witness for C1: a concrete failing run (the second unit's SQL body
fails) rolls the state back and yields a `"migrate: "`-prefixed error. -/
theorem migrate_error_rolls_back_witness :
    dbEmpty = dbEmpty ∧
    ∃ rest, "migrate: exec 2 (002_bad.sql): syntax error" = "migrate: " ++ rest :=
  migrate_error_rolls_back oracleExecFail entriesTwo dbEmpty dbEmpty
    "migrate: exec 2 (002_bad.sql): syntax error"
    [⟨1, "001_init.sql", "CREATE TABLE users;"⟩] (by rfl)

theorem migrate_discover_error {o : Oracle} {entries : List Entry} {db : DBState}
    {e : String} (hrd : o.readDirErr = none) (hdis : discover entries = .error e) :
    Migrate o entries db = (.error e, db, []) := by
  unfold Migrate
  rw [hrd, hdis]

theorem discover_error_at {pre suf : List Entry} {e2 : Entry}
    {seen : List (Int × String)} {acc : List migration} {msg : String}
    (hpre : discoverState pre [] [] = .ok (seen, acc))
    (hstep : discoverStep seen acc e2 = .error msg) :
    discover (pre ++ e2 :: suf) = .error msg := by
  unfold discover
  rw [discoverState_append pre (e2 :: suf) [] [], hpre]
  simp only [discoverState, hstep]
  rfl

theorem discoverStep_dup {seen : List (Int × String)} {acc : List migration}
    {e2 : Entry} {v : Int} {prev : String}
    (hdir : e2.isDir = false) (hdot : startsDot e2.name = false)
    (hat : goAtoi (sepPrefix e2.name) = .ok v)
    (hlk : (seen.lookup v : Option String) = some prev) :
    discoverStep seen acc e2 = .error ("migrate: duplicate version " ++
      toString v ++ ": " ++ goQuote prev ++ " and " ++ goQuote e2.name) := by
  simp [discoverStep, hdir, hdot, hat, hlk]

theorem discoverStep_bad {seen : List (Int × String)} {acc : List migration}
    {e2 : Entry} {msg : String}
    (hdir : e2.isDir = false) (hdot : startsDot e2.name = false)
    (hat : goAtoi (sepPrefix e2.name) = .error msg) :
    discoverStep seen acc e2 = .error ("migrate: bad name " ++ goQuote e2.name ++
      ": " ++ "strconv.Atoi: parsing " ++ goQuote ((sepPrefix e2.name).asString) ++
      ": " ++ msg) := by
  simp [discoverStep, hdir, hdot, hat]

/-- C6: For every discovered artifact collection in which a non-skipped
artifact `e2` parses to a version `v` already registered by an earlier
artifact (named `prev`), `Migrate` fails with the duplicate-version
error, which names both conflicting artifacts; the failure happens
before any transaction begins: the database state is returned unchanged
and no unit is applied. (`Migrate` is a function, so the failure is
deterministic.) -/
theorem migrate_duplicate_version (o : Oracle) (db : DBState)
    (pre suf : List Entry) (e2 : Entry) (seen : List (Int × String))
    (acc : List migration) (v : Int) (prev : String)
    (hrd : o.readDirErr = none)
    (hpre : discoverState pre [] [] = .ok (seen, acc))
    (hdir : e2.isDir = false) (hdot : startsDot e2.name = false)
    (hat : goAtoi (sepPrefix e2.name) = .ok v)
    (hlk : (seen.lookup v : Option String) = some prev) :
    Migrate o (pre ++ e2 :: suf) db =
      (.error ("migrate: duplicate version " ++ toString v ++ ": " ++
        goQuote prev ++ " and " ++ goQuote e2.name), db, []) ∧
    (∃ s1 s2, ("migrate: duplicate version " ++ toString v ++ ": " ++
        goQuote prev ++ " and " ++ goQuote e2.name) = s1 ++ prev ++ s2) ∧
    (∃ s1 s2, ("migrate: duplicate version " ++ toString v ++ ": " ++
        goQuote prev ++ " and " ++ goQuote e2.name) = s1 ++ e2.name ++ s2) := by
  refine ⟨?_, ?_, ?_⟩
  · exact migrate_discover_error hrd
      (discover_error_at hpre (discoverStep_dup hdir hdot hat hlk))
  · exact ⟨"migrate: duplicate version " ++ toString v ++ ": \"",
      "\" and " ++ goQuote e2.name,
      strExt (by simp [String.data_append, goQuote, List.append_assoc])⟩
  · exact ⟨"migrate: duplicate version " ++ toString v ++ ": " ++
      goQuote prev ++ " and \"", "\"",
      strExt (by simp [String.data_append, goQuote, List.append_assoc])⟩

/-- Witness for C6: two artifacts both carrying version 1; the run fails
with an error naming both, and the state is unchanged. -/
theorem migrate_duplicate_version_witness :
    Migrate oracleOk ([⟨"001_init.sql", false, none, "A"⟩] ++
        ⟨"001_dup.sql", false, none, "B"⟩ :: []) dbEmpty =
      (.error ("migrate: duplicate version " ++ toString (1 : Int) ++ ": " ++
        goQuote "001_init.sql" ++ " and " ++ goQuote "001_dup.sql"), dbEmpty, []) ∧
    (∃ s1 s2, ("migrate: duplicate version " ++ toString (1 : Int) ++ ": " ++
        goQuote "001_init.sql" ++ " and " ++ goQuote "001_dup.sql") =
        s1 ++ "001_init.sql" ++ s2) ∧
    (∃ s1 s2, ("migrate: duplicate version " ++ toString (1 : Int) ++ ": " ++
        goQuote "001_init.sql" ++ " and " ++ goQuote "001_dup.sql") =
        s1 ++ "001_dup.sql" ++ s2) :=
  migrate_duplicate_version oracleOk dbEmpty [⟨"001_init.sql", false, none, "A"⟩]
    [] ⟨"001_dup.sql", false, none, "B"⟩ [(1, "001_init.sql")]
    [⟨1, "001_init.sql", "A"⟩] 1 "001_init.sql" rfl rfl rfl rfl rfl rfl

/-- Modelled from the spec: "each artifact's identifying name must begin
with an integer prefix followed by a separator, e.g. `\x7b7_add_index\x7d`" —
a decimal-digit prefix that is nonempty and is followed by the `'_'`
separator. (Used only to state that a name can lack this shape yet be
accepted by the code.) -/
def specNameShape (s : String) : Bool :=
  let pre := s.toList.takeWhile (fun c => c ≠ '_')
  decide (pre.length < s.toList.length) && (!pre.isEmpty) && pre.all Char.isDigit

/-- C5 counterexample: the artifact name `"7"` does not begin with an
integer prefix followed by a separator (there is no separator at all),
yet discovery accepts the collection — it parses the whole name with
`strconv.Atoi` — and a full run succeeds and applies the unit. So a
malformed-shape name does not necessarily fail discovery. -/
theorem migrate_name_shape_counterexample :
    specNameShape "7" = false ∧
    discover [⟨"7", false, none, "CREATE TABLE t(x INTEGER);"⟩] =
      .ok [⟨7, "7", "CREATE TABLE t(x INTEGER);"⟩] ∧
    Migrate oracleOk [⟨"7", false, none, "CREATE TABLE t(x INTEGER);"⟩] dbEmpty =
      (.ok (), ⟨true, [7], ["CREATE TABLE t(x INTEGER);"]⟩,
        [⟨7, "7", "CREATE TABLE t(x INTEGER);"⟩]) :=
  ⟨rfl, rfl, rfl⟩

/-- C5 (amended): any non-skipped artifact whose name-segment before the
first `'_'` separator (the whole name when no separator occurs) does not
parse as an integer via `strconv.Atoi` causes discovery of the whole set
to fail with an error naming the offending artifact, before any
transaction begins: the database state is returned unchanged and no unit
is applied. -/
theorem migrate_bad_name (o : Oracle) (db : DBState) (pre suf : List Entry)
    (e2 : Entry) (seen : List (Int × String)) (acc : List migration)
    (msg : String)
    (hrd : o.readDirErr = none)
    (hpre : discoverState pre [] [] = .ok (seen, acc))
    (hdir : e2.isDir = false) (hdot : startsDot e2.name = false)
    (hat : goAtoi (sepPrefix e2.name) = .error msg) :
    Migrate o (pre ++ e2 :: suf) db =
      (.error ("migrate: bad name " ++ goQuote e2.name ++ ": " ++
        "strconv.Atoi: parsing " ++ goQuote ((sepPrefix e2.name).asString) ++
        ": " ++ msg), db, []) ∧
    ∃ s1 s2, ("migrate: bad name " ++ goQuote e2.name ++ ": " ++
        "strconv.Atoi: parsing " ++ goQuote ((sepPrefix e2.name).asString) ++
        ": " ++ msg) = s1 ++ e2.name ++ s2 := by
  refine ⟨?_, ?_⟩
  · exact migrate_discover_error hrd
      (discover_error_at hpre (discoverStep_bad hdir hdot hat))
  · exact ⟨"migrate: bad name \"",
      "\": " ++ "strconv.Atoi: parsing " ++ goQuote ((sepPrefix e2.name).asString) ++
        ": " ++ msg,
      strExt (by simp [String.data_append, goQuote, List.append_assoc])⟩

/-- Witness for C5 (amended): the artifact `"abc_invalid.sql"` fails
discovery with an error naming it, and the state is unchanged. -/
theorem migrate_bad_name_witness :
    Migrate oracleOk ([] ++ ⟨"abc_invalid.sql", false, none, "X"⟩ :: []) dbEmpty =
      (.error ("migrate: bad name " ++ goQuote "abc_invalid.sql" ++ ": " ++
        "strconv.Atoi: parsing " ++
        goQuote ((sepPrefix "abc_invalid.sql").asString) ++
        ": " ++ "invalid syntax"), dbEmpty, []) ∧
    ∃ s1 s2, ("migrate: bad name " ++ goQuote "abc_invalid.sql" ++ ": " ++
        "strconv.Atoi: parsing " ++
        goQuote ((sepPrefix "abc_invalid.sql").asString) ++
        ": " ++ "invalid syntax") = s1 ++ "abc_invalid.sql" ++ s2 :=
  migrate_bad_name oracleOk dbEmpty [] [] ⟨"abc_invalid.sql", false, none, "X"⟩
    [] [] "invalid syntax" rfl rfl rfl rfl rfl

theorem migrate_ok_inv {o : Oracle} {entries : List Entry} {db db' : DBState}
    {tr : List migration} (h : Migrate o entries db = (.ok (), db', tr)) :
    o.readDirErr = none ∧ o.beginErr = none ∧ o.createErr = none ∧
    o.readVerErr = none ∧ o.commitErr = none ∧
    ∃ ms0, discover entries = .ok ms0 ∧
      applyLoop o (maxVer db.ledger) (sortMs ms0)
        { db with ledgerExists := true } = (.ok db', tr) := by
  unfold Migrate at h
  cases hrd : o.readDirErr with
  | some msg => simp [hrd] at h
  | none =>
  simp only [hrd] at h
  cases hdis : discover entries with
  | error e => simp [hdis] at h
  | ok ms0 =>
  simp only [hdis] at h
  cases hbg : o.beginErr with
  | some msg => simp [hbg] at h
  | none =>
  simp only [hbg] at h
  cases hcr : o.createErr with
  | some msg => simp [hcr] at h
  | none =>
  simp only [hcr] at h
  cases hrv : o.readVerErr with
  | some msg => simp [hrv] at h
  | none =>
  simp only [hrv] at h
  rcases hal : applyLoop o (maxVer db.ledger) (sortMs ms0)
      { db with ledgerExists := true } with ⟨r, tr'⟩
  simp only [hal] at h
  cases r with
  | error e => simp at h
  | ok st1 =>
  cases hcm : o.commitErr with
  | some msg => simp [hcm] at h
  | none =>
  simp only [hcm, Prod.mk.injEq] at h
  obtain ⟨-, h2, h3⟩ := h
  subst h2
  subst h3
  exact ⟨rfl, rfl, rfl, rfl, rfl, ms0, rfl, hal⟩

/-- C7: For every run in which `Migrate` succeeds, the applied units are
exactly the discovered units with version greater than
`cur = maxVer(ledger)` — taken from the version-ascending sort of the
discovered slice, not from discovery order — so their versions are
strictly increasing; the ledger is extended by exactly the applied
versions, the schema by exactly the applied SQL bodies (each applied
unit's body executed without error, and a version is recorded iff its
body executed, in the same transaction). -/
theorem migrate_applies_sorted_pending (o : Oracle) (entries : List Entry)
    (db db' : DBState) (tr ms0 : List migration)
    (hdis : discover entries = .ok ms0)
    (h : Migrate o entries db = (.ok (), db', tr)) :
    tr = (sortMs ms0).filter (fun m => decide (maxVer db.ledger < m.v)) ∧
    List.Pairwise (fun a b => a.v < b.v) tr ∧
    db'.ledger = db.ledger ++ tr.map migration.v ∧
    db'.schema = db.schema ++ tr.map migration.sql ∧
    (∀ m ∈ tr, o.execErr m.sql = none ∧ o.recordErr m.v = none) := by
  obtain ⟨hrd, hbg, hcr, hrv, hcm, ms1, hdis1, hal⟩ := migrate_ok_inv h
  rw [hdis] at hdis1
  injection hdis1 with hms
  subst hms
  obtain ⟨e1, e2, e3, e4, e5⟩ :=
    applyLoop_ok o (maxVer db.ledger) (sortMs ms0) _ db' tr hal
  have hnd0 : (ms0.map migration.v).Nodup := discover_nodup hdis
  have hperm : List.Perm ((sortMs ms0).map migration.v) (ms0.map migration.v) :=
    (sortMs_perm ms0).map _
  have hnds : ((sortMs ms0).map migration.v).Nodup := hperm.nodup_iff.mpr hnd0
  have hne : List.Pairwise (fun a b => a.v ≠ b.v) (sortMs ms0) :=
    List.pairwise_map.mp hnds
  have hlt : List.Pairwise (fun a b => a.v < b.v) (sortMs ms0) :=
    ((sortMs_pairwise ms0).and hne).imp fun hab => lt_of_le_of_ne hab.1 hab.2
  refine ⟨e4, ?_, e2, e3, e5⟩
  rw [e4]
  exact hlt.filter _

/-- The discovered migration set of `entriesUnsorted`. -/
def msUnsorted : List migration :=
  [⟨2, "002_b.sql", "B"⟩, ⟨1, "001_a.sql", "A"⟩, ⟨3, "003_c.sql", "C"⟩]

/-- Three well-formed migration artifacts listed out of version order. -/
def entriesUnsorted : List Entry :=
  [⟨"002_b.sql", false, none, "B"⟩, ⟨"001_a.sql", false, none, "A"⟩,
   ⟨"003_c.sql", false, none, "C"⟩]

/-- A database state with version 1 already applied. -/
def dbV1 : DBState := ⟨true, [1], ["A"]⟩

/-- Witness for C7: applying `entriesUnsorted` to `dbV1` applies exactly
versions 2 and 3, in ascending order, and extends ledger and schema
accordingly. -/
theorem migrate_applies_sorted_pending_witness :
    [(⟨2, "002_b.sql", "B"⟩ : migration), ⟨3, "003_c.sql", "C"⟩] =
      (sortMs msUnsorted).filter (fun m => decide (maxVer dbV1.ledger < m.v)) ∧
    List.Pairwise (fun a b => a.v < b.v)
      [(⟨2, "002_b.sql", "B"⟩ : migration), ⟨3, "003_c.sql", "C"⟩] ∧
    (⟨true, [1, 2, 3], ["A", "B", "C"]⟩ : DBState).ledger =
      dbV1.ledger ++ [(⟨2, "002_b.sql", "B"⟩ : migration),
        ⟨3, "003_c.sql", "C"⟩].map migration.v ∧
    (⟨true, [1, 2, 3], ["A", "B", "C"]⟩ : DBState).schema =
      dbV1.schema ++ [(⟨2, "002_b.sql", "B"⟩ : migration),
        ⟨3, "003_c.sql", "C"⟩].map migration.sql ∧
    (∀ m ∈ [(⟨2, "002_b.sql", "B"⟩ : migration), ⟨3, "003_c.sql", "C"⟩],
      oracleOk.execErr m.sql = none ∧ oracleOk.recordErr m.v = none) :=
  migrate_applies_sorted_pending oracleOk entriesUnsorted dbV1
    ⟨true, [1, 2, 3], ["A", "B", "C"]⟩
    [⟨2, "002_b.sql", "B"⟩, ⟨3, "003_c.sql", "C"⟩] msUnsorted rfl rfl

/-- C2: For every migration set and datastore, if a run of `Migrate`
succeeds, running it again against the resulting datastore is
idempotent: the second run applies zero units, leaves the state (ledger
included) unchanged, and still commits successfully — because every
discovered unit's version is at most the ledger's maximum version after
the first run. -/
theorem migrate_idempotent (o : Oracle) (entries : List Entry)
    (db db1 : DBState) (tr : List migration)
    (h : Migrate o entries db = (.ok (), db1, tr)) :
    Migrate o entries db1 = (.ok (), db1, []) ∧
    ∀ ms0, discover entries = .ok ms0 → ∀ m ∈ ms0, m.v ≤ maxVer db1.ledger := by
  obtain ⟨hrd, hbg, hcr, hrv, hcm, ms0, hdis, hal⟩ := migrate_ok_inv h
  obtain ⟨e1, e2, e3, e4, e5⟩ :=
    applyLoop_ok o (maxVer db.ledger) (sortMs ms0) _ db1 tr hal
  have hle : db1.ledgerExists = true := by rw [e1]
  have hbound : ∀ m ∈ sortMs ms0, m.v ≤ maxVer db1.ledger := by
    intro m hm
    by_cases hcur : maxVer db.ledger < m.v
    · have hmtr : m ∈ tr := by
        rw [e4]
        exact List.mem_filter.mpr ⟨hm, by simpa using hcur⟩
      have hml : m.v ∈ db1.ledger := by
        rw [e2]
        exact List.mem_append_right _ (List.mem_map_of_mem _ hmtr)
      exact mem_le_maxVer hml
    · push_neg at hcur
      rcases maxVer_attained db.ledger with hnil | hmem
      · cases htr : tr with
        | nil =>
          have hl1 : db1.ledger = [] := by rw [e2, htr, hnil]; rfl
          rw [hl1]
          rw [hnil] at hcur
          simpa [maxVer] using hcur
        | cons t ts =>
          have httr : t ∈ tr := by rw [htr]; exact List.mem_cons_self t ts
          have htf : t ∈ (sortMs ms0).filter
              (fun m => decide (maxVer db.ledger < m.v)) := e4 ▸ httr
          have hlt : maxVer db.ledger < t.v := by
            simpa using (List.mem_filter.mp htf).2
          have htl : t.v ∈ db1.ledger := by
            rw [e2]
            exact List.mem_append_right _ (List.mem_map_of_mem _ httr)
          exact le_trans hcur (le_trans (le_of_lt hlt) (mem_le_maxVer htl))
      · have hml : maxVer db.ledger ∈ db1.ledger := by
          rw [e2]
          exact List.mem_append_left _ hmem
        exact le_trans hcur (mem_le_maxVer hml)
  have heq : ({ db1 with ledgerExists := true } : DBState) = db1 := by
    rw [← hle]
  constructor
  · simp only [Migrate, hrd, hdis, hbg, hcr, hrv, hcm, heq]
    rw [applyLoop_skip o (maxVer db1.ledger) (sortMs ms0) db1 hbound]
  · intro ms0' hdis' m hm
    rw [hdis] at hdis'
    injection hdis' with hms
    subst hms
    exact hbound m ((sortMs_perm ms0).mem_iff.mpr hm)

/-- Witness for C2: after `Migrate` brings `dbV1` to versions `{1,2,3}`,
a second run applies nothing and leaves the state unchanged. -/
theorem migrate_idempotent_witness :
    Migrate oracleOk entriesUnsorted (⟨true, [1, 2, 3], ["A", "B", "C"]⟩ : DBState) =
      (.ok (), ⟨true, [1, 2, 3], ["A", "B", "C"]⟩, []) ∧
    ∀ ms0, discover entriesUnsorted = .ok ms0 →
      ∀ m ∈ ms0, m.v ≤ maxVer (⟨true, [1, 2, 3], ["A", "B", "C"]⟩ : DBState).ledger :=
  migrate_idempotent oracleOk entriesUnsorted dbV1
    ⟨true, [1, 2, 3], ["A", "B", "C"]⟩
    [⟨2, "002_b.sql", "B"⟩, ⟨3, "003_c.sql", "C"⟩] rfl

/-- C3: For every traced connection whose base connection supports
context-aware execution and querying, `ExecContext` and `QueryContext`
hand back exactly the (result, error) pair the base driver's call
produced — the instrumentation neither alters nor suppresses results or
errors, and never fails an operation the base driver succeeded on. -/
theorem traced_returns_base_outcome {Res Rows TxT : Type}
    (base : BaseConn Res Rows TxT) (t : Option Tracer) (n : Nat) (dur : Int)
    (q : String) (args : List NamedValue)
    (he : base.execSupported = true) (hq : base.querySupported = true) :
    (tracedConn.ExecContext base t n dur q args).1 = base.exec q args ∧
    (tracedConn.QueryContext base t n dur q args).1 = base.query q args := by
  constructor
  · unfold tracedConn.ExecContext
    rw [if_neg (by simp [he])]
  · unfold tracedConn.QueryContext
    rw [if_neg (by simp [hq])]

/-- A concrete base connection used by the tracer witnesses: exec
succeeds with result 5, query fails with an error. -/
def baseDemo : BaseConn Nat Nat Nat where
  execSupported := true
  exec := fun _ _ => (some 5, none)
  querySupported := true
  query := fun _ _ => (none, some (.mk "oops"))
  beginTxSupported := true
  beginTx := fun _ => (some 1, none)
  begin := (some 2, none)

/-- Witness for C3: on `baseDemo`, the traced calls return the base
outcomes unchanged (a success stays the same success, a failure stays
the same failure). -/
theorem traced_returns_base_outcome_witness :
    (tracedConn.ExecContext baseDemo (some ⟨0, false, 0⟩) 0 3 "SELECT 1" []).1 =
      baseDemo.exec "SELECT 1" [] ∧
    (tracedConn.QueryContext baseDemo (some ⟨0, false, 0⟩) 0 3 "SELECT 1" []).1 =
      baseDemo.query "SELECT 1" [] :=
  traced_returns_base_outcome baseDemo (some ⟨0, false, 0⟩) 0 3 "SELECT 1" []
    rfl rfl

/-- C10: The non-context `Begin` of a traced connection always returns
`(nil, driver.ErrSkip)` without consulting the wrapped connection — its
value does not depend on the base connection at all, even when the base
would support `Begin` — while `BeginTx` delegates to the base exactly
when the base implements `driver.ConnBeginTx` and returns the same
pass-through sentinel otherwise. -/
theorem traced_begin_skips {Res Rows TxT : Type}
    (base base' : BaseConn Res Rows TxT) (opts : TxOptions) :
    tracedConn.Begin base = ((none : Option TxT), some DrvErr.errSkip) ∧
    tracedConn.Begin base = tracedConn.Begin base' ∧
    (base.beginTxSupported = true →
      tracedConn.BeginTx base opts = base.beginTx opts) ∧
    (base.beginTxSupported = false →
      tracedConn.BeginTx base opts = (none, some DrvErr.errSkip)) := by
  refine ⟨rfl, rfl, ?_, ?_⟩
  · intro h
    unfold tracedConn.BeginTx
    rw [if_pos h]
  · intro h
    unfold tracedConn.BeginTx
    rw [if_neg (by simp [h])]

/-- Witness for C10: on `baseDemo` (which supports `BeginTx`), `Begin`
still returns the sentinel while `BeginTx` delegates. -/
theorem traced_begin_skips_witness :
    tracedConn.Begin baseDemo = ((none : Option Nat), some DrvErr.errSkip) ∧
    tracedConn.BeginTx baseDemo ⟨0, false⟩ = baseDemo.beginTx ⟨0, false⟩ :=
  ⟨(traced_begin_skips baseDemo baseDemo ⟨0, false⟩).1,
   (traced_begin_skips baseDemo baseDemo ⟨0, false⟩).2.2.1 rfl⟩

/-- C8: With `MaskArgs = true`, every failed call emits exactly one
error-level event whose argument rendering is the fixed `masked`
placeholder, and the emitted output is identical for any two argument
lists — the event is independent of the actual argument values, so it
never contains them. -/
theorem masked_error_events (t : Tracer) (n : Nat) (kind q : String)
    (args args' : List NamedValue) (dur : Int) (e : DrvErr)
    (hm : t.MaskArgs = true) :
    (∃ ev, (tracedConn.log (some t) n kind q args dur (some e)).1 = [ev] ∧
      ev.args = some ArgsRendering.masked ∧ ev.isError = true) ∧
    tracedConn.log (some t) n kind q args dur (some e) =
      tracedConn.log (some t) n kind q args' dur (some e) := by
  constructor
  · exact ⟨_, rfl, by simp [tracedConn.log, maskArgs, hm], rfl⟩
  · simp [tracedConn.log, maskArgs, hm]

/-- Witness for C8: a failing call with a secret-bearing argument list
emits a masked error event, identical to the event for an empty
argument list. -/
theorem masked_error_events_witness :
    (∃ ev, (tracedConn.log (some ⟨0, true, 0⟩) 0 "exec" "SELECT 1"
        [⟨"", 1, "secret"⟩] 5 (some (.mk "bad"))).1 = [ev] ∧
      ev.args = some ArgsRendering.masked ∧ ev.isError = true) ∧
    tracedConn.log (some ⟨0, true, 0⟩) 0 "exec" "SELECT 1"
        [⟨"", 1, "secret"⟩] 5 (some (.mk "bad")) =
      tracedConn.log (some ⟨0, true, 0⟩) 0 "exec" "SELECT 1"
        [] 5 (some (.mk "bad")) :=
  masked_error_events ⟨0, true, 0⟩ 0 "exec" "SELECT 1"
    [⟨"", 1, "secret"⟩] [] 5 (.mk "bad") rfl

theorem sampled_le_one (t : Tracer) (n : Nat) (h : t.SampleEvery ≤ 1) :
    tracedConn.sampled t n = (true, n) := by
  unfold tracedConn.sampled
  rw [if_pos h]

theorem sampled_gt_one (t : Tracer) (n : Nat) (h : 1 < t.SampleEvery) :
    tracedConn.sampled t n =
      ((n + 1) % 2 ^ 64 % t.SampleEvery.toNat == 0, (n + 1) % 2 ^ 64) := by
  unfold tracedConn.sampled
  rw [if_neg (not_le.mpr h)]

theorem log_slow_qualifying (t : Tracer) (n : Nat) (kind q : String)
    (args : List NamedValue) (dur : Int)
    (hthr : 0 < t.SlowThresh) (hdur : t.SlowThresh ≤ dur) :
    tracedConn.log (some t) n kind q args dur none =
      (if (tracedConn.sampled t n).1
       then [⟨false, "db.query.slow", kind, compact q, none, dur, none⟩]
       else [], (tracedConn.sampled t n).2) := by
  unfold tracedConn.log
  have hcond : ¬(t.SlowThresh ≤ 0 ∨ dur < t.SlowThresh) := by
    rw [not_or]
    exact ⟨not_le.mpr hthr, not_lt.mpr hdur⟩
  rcases hs : tracedConn.sampled t n with ⟨b, n'⟩
  cases b <;> simp [hcond, hs]

theorem runLog_slow_all (t : Tracer) (kind q : String) (args : List NamedValue)
    (dur : Int) (hN : t.SampleEvery ≤ 1) (hthr : 0 < t.SlowThresh)
    (hdur : t.SlowThresh ≤ dur) :
    ∀ (K c0 : Nat),
    (runLog (some t) c0 (List.replicate K ⟨kind, q, args, dur, none⟩)).1.countP
        (fun ev => ev.msg == "db.query.slow") = K ∧
    (runLog (some t) c0 (List.replicate K ⟨kind, q, args, dur, none⟩)).2 = c0 := by
  intro K
  induction K with
  | zero => intro c0; simp [runLog]
  | succ k ih =>
    intro c0
    rw [List.replicate_succ]
    simp only [runLog]
    rw [log_slow_qualifying t c0 kind q args dur hthr hdur, sampled_le_one t c0 hN]
    rcases hrec : runLog (some t) c0
        (List.replicate k ⟨kind, q, args, dur, none⟩) with ⟨evs', n2⟩
    obtain ⟨ihc, ihn⟩ := ih c0
    rw [hrec] at ihc ihn
    simp only at ihc ihn
    simp [List.countP_cons, ihc, ihn]

theorem runLog_slow_general (t : Tracer) (kind q : String)
    (args : List NamedValue) (dur : Int) (hN : 1 < t.SampleEvery)
    (hthr : 0 < t.SlowThresh) (hdur : t.SlowThresh ≤ dur) :
    ∀ (K c0 : Nat), c0 + K < 2 ^ 64 →
    (runLog (some t) c0 (List.replicate K ⟨kind, q, args, dur, none⟩)).1.countP
        (fun ev => ev.msg == "db.query.slow") + c0 / t.SampleEvery.toNat =
      (c0 + K) / t.SampleEvery.toNat ∧
    (runLog (some t) c0 (List.replicate K ⟨kind, q, args, dur, none⟩)).2 =
      c0 + K := by
  intro K
  induction K with
  | zero => intro c0 hb; simp [runLog]
  | succ k ih =>
    intro c0 hb
    rw [List.replicate_succ]
    simp only [runLog]
    rw [log_slow_qualifying t c0 kind q args dur hthr hdur, sampled_gt_one t c0 hN]
    have hmod : (c0 + 1) % 2 ^ 64 = c0 + 1 := Nat.mod_eq_of_lt (by omega)
    rw [hmod]
    rcases hrec : runLog (some t) (c0 + 1)
        (List.replicate k ⟨kind, q, args, dur, none⟩) with ⟨evs', n2⟩
    obtain ⟨ihc, ihn⟩ := ih (c0 + 1) (by omega)
    rw [hrec] at ihc ihn
    have hadd : c0 + (k + 1) = c0 + 1 + k := by omega
    rw [hadd]
    have hsd := Nat.succ_div c0 t.SampleEvery.toNat
    have hNpos : 0 < t.SampleEvery.toNat := by omega
    by_cases hdvd : (c0 + 1) % t.SampleEvery.toNat = 0
    · have hdv : t.SampleEvery.toNat ∣ (c0 + 1) :=
        Nat.dvd_of_mod_eq_zero hdvd
      rw [if_pos hdv] at hsd
      have hbit : (((c0 + 1) % t.SampleEvery.toNat == 0) : Bool) = true := by
        simp [hdvd]
      simp only [hbit, if_true, List.countP_append, List.countP_cons,
        List.countP_nil] at *
      constructor
      · have hpev : ((("db.query.slow" == "db.query.slow") : Bool) = true) := rfl
        simp only [hpev, if_true]
        omega
      · omega
    · have hdv : ¬ t.SampleEvery.toNat ∣ (c0 + 1) := by
        intro hc
        exact hdvd (Nat.dvd_iff_mod_eq_zero.mp hc)
      rw [if_neg hdv] at hsd
      have hbit : (((c0 + 1) % t.SampleEvery.toNat == 0) : Bool) = false :=
        beq_eq_false_iff_ne.mpr hdvd
      simp only [hbit, Bool.false_eq_true, if_false, List.countP_append,
        List.countP_nil] at *
      constructor
      · omega
      · omega

/-- C4: For a single traced connection (counter starting at 0) observing
K qualifying events — successful calls whose duration is at or above the
positive slow threshold — the number of `db.query.slow` warnings emitted
is K itself when `SampleEvery ≤ 1` (every qualifying event is emitted)
and exactly `⌊K / SampleEvery⌋` when `SampleEvery > 1` (the counter is
incremented on each sampling check and the event is emitted iff the
counter is divisible by `SampleEvery`). -/
theorem slow_query_sampling (t : Tracer) (kind q : String)
    (args : List NamedValue) (dur : Int) (K : Nat)
    (hthr : 0 < t.SlowThresh) (hdur : t.SlowThresh ≤ dur) (hK : K < 2 ^ 64) :
    (runLog (some t) 0 (List.replicate K ⟨kind, q, args, dur, none⟩)).1.countP
        (fun ev => ev.msg == "db.query.slow") =
      if t.SampleEvery ≤ 1 then K else K / t.SampleEvery.toNat := by
  by_cases hN : t.SampleEvery ≤ 1
  · rw [if_pos hN]
    exact (runLog_slow_all t kind q args dur hN hthr hdur K 0).1
  · rw [if_neg hN]
    have h := (runLog_slow_general t kind q args dur (lt_of_not_le hN)
      hthr hdur K 0 (by omega)).1
    simpa using h

/-- Witness for C4: 7 qualifying events with 1-in-3 sampling emit
exactly `7 / 3 = 2` slow-query warnings. -/
theorem slow_query_sampling_witness :
    (0 : Int) < 100 ∧ (100 : Int) ≤ 150 ∧ 7 < 2 ^ 64 ∧
    (runLog (some ⟨100, false, 3⟩) 0
        (List.replicate 7 ⟨"exec", "SELECT 1", [], 150, none⟩)).1.countP
        (fun ev => ev.msg == "db.query.slow") =
      if (⟨100, false, 3⟩ : Tracer).SampleEvery ≤ 1 then 7
      else 7 / (⟨100, false, 3⟩ : Tracer).SampleEvery.toNat :=
  ⟨by decide, by decide, by norm_num,
   slow_query_sampling ⟨100, false, 3⟩ "exec" "SELECT 1" [] 150 7
     (by decide) (by decide) (by norm_num)⟩

/-! ## C9: `compact` refines the spec's normalization

The spec describes the rendered query text as "all whitespace runs
(including newlines/tabs) collapsed to single spaces and the result
trimmed of leading/trailing whitespace". `normalizeSpec` below is that
description taken literally (collapse, then trim); the development
proves the source's `compact` (replace newlines, split into fields,
re-join) computes exactly it. -/

/-- Whether a character list starts with a whitespace character. -/
def headSp : List Char → Bool
  | [] => false
  | c :: _ => goIsSpace c

/-- Whether a character list ends with a whitespace character. -/
def lastSp (cs : List Char) : Bool := headSp cs.reverse

/-- Spec-side: collapse every whitespace run to a single `' '`. -/
def collapseRuns (cs : List Char) : List Char :=
  match cs with
  | [] => []
  | c :: rest =>
    if goIsSpace c then ' ' :: collapseRuns (rest.dropWhile goIsSpace)
    else c :: collapseRuns rest
  termination_by cs.length
  decreasing_by
    · simp only [List.length_cons]
      exact Nat.lt_succ_of_le (dropWhile_length_le _ _)
    · simp

/-- Spec-side: trim leading whitespace. -/
def trimLeft (cs : List Char) : List Char := cs.dropWhile goIsSpace

/-- Spec-side: trim trailing whitespace. -/
def trimRight (cs : List Char) : List Char :=
  (cs.reverse.dropWhile goIsSpace).reverse

/-- The spec's normalization, on character lists: collapse all
whitespace runs to single spaces, then trim both ends. -/
def normalizeSpecC (cs : List Char) : List Char :=
  trimRight (trimLeft (collapseRuns cs))

/-- The spec's normalization ("collapse all whitespace runs (including
newlines/tabs) to single spaces and trim"), at the `String` level. -/
def normalizeSpec (s : String) : String :=
  (normalizeSpecC s.toList).asString

/-- The single leading `' '` that `collapseRuns` leaves when the input
starts with whitespace. -/
def optLead (cs : List Char) : List Char := if headSp cs then [' '] else []

/-- The single trailing `' '` that `collapseRuns` leaves when the input
ends with whitespace and has at least one word. -/
def optTrail (cs : List Char) : List Char :=
  if (goFields cs).isEmpty then [] else if lastSp cs then [' '] else []

theorem goFields_dropWhile : ∀ (cs : List Char),
    goFields (cs.dropWhile goIsSpace) = goFields cs := by
  intro cs
  induction cs with
  | nil => rfl
  | cons c rest ih =>
    by_cases h : goIsSpace c = true
    · simp only [List.dropWhile, h, ih]
      rw [goFields]
      simp [h]
    · simp [List.dropWhile, h]

theorem goFields_eq_nil : ∀ (cs : List Char), goFields cs = [] →
    ∀ c ∈ cs, goIsSpace c = true := by
  intro cs
  induction cs using goFields.induct with
  | case1 => intro _ c hc; simp at hc
  | case2 c rest h ih =>
    intro hf x hx
    rw [goFields, if_pos h] at hf
    rcases List.mem_cons.mp hx with hx | hx
    · subst hx; exact h
    · exact ih hf x hx
  | case3 c rest h ih =>
    intro hf
    rw [goFields, if_neg h] at hf
    cases hf

theorem dropWhile_idem (p : Char → Bool) : ∀ (l : List Char),
    (l.dropWhile p).dropWhile p = l.dropWhile p := by
  intro l
  induction l with
  | nil => rfl
  | cons a l ih =>
    by_cases h : p a = true
    · simp only [List.dropWhile, h]
      exact ih
    · simp only [List.dropWhile, h]

theorem headSp_append (l1 l2 : List Char) (h : l1 ≠ []) :
    headSp (l1 ++ l2) = headSp l1 := by
  cases l1 with
  | nil => exact absurd rfl h
  | cons a l => rfl

theorem lastSp_append (l1 l2 : List Char) (h : l2 ≠ []) :
    lastSp (l1 ++ l2) = lastSp l2 := by
  unfold lastSp
  rw [List.reverse_append]
  exact headSp_append _ _ (by simpa using h)

theorem lastSp_cons (c : Char) (cs : List Char) (h : cs ≠ []) :
    lastSp (c :: cs) = lastSp cs := by
  have : c :: cs = [c] ++ cs := rfl
  rw [this, lastSp_append [c] cs h]

theorem lastSp_dropWhile (cs : List Char)
    (h : cs.dropWhile goIsSpace ≠ []) :
    lastSp cs = lastSp (cs.dropWhile goIsSpace) := by
  conv_lhs => rw [← List.takeWhile_append_dropWhile (p := goIsSpace) (l := cs)]
  exact lastSp_append _ _ h

theorem lastSp_all_space (cs : List Char) (h : cs ≠ [])
    (hall : ∀ c ∈ cs, goIsSpace c = true) : lastSp cs = true := by
  unfold lastSp
  cases hrev : cs.reverse with
  | nil => exact absurd (by simpa using hrev) h
  | cons d ds =>
    have hd : d ∈ cs := by
      rw [← List.mem_reverse, hrev]
      exact List.mem_cons_self d ds
    simpa [headSp] using hall d hd

theorem lastSp_no_space (cs : List Char) (hall : ∀ c ∈ cs, goIsSpace c = false) :
    lastSp cs = false := by
  unfold lastSp
  cases hrev : cs.reverse with
  | nil => rfl
  | cons d ds =>
    have hd : d ∈ cs := by
      rw [← List.mem_reverse, hrev]
      exact List.mem_cons_self d ds
    simpa [headSp] using hall d hd

theorem headSp_dropWhile (l : List Char) :
    headSp (l.dropWhile goIsSpace) = false := by
  induction l with
  | nil => rfl
  | cons a l ih =>
    by_cases h : goIsSpace a = true
    · simp only [List.dropWhile, h]
      exact ih
    · simp only [List.dropWhile, h]
      simpa [headSp] using h

theorem dropWhile_of_headSp_false (l : List Char) (h : headSp l = false) :
    l.dropWhile goIsSpace = l := by
  cases l with
  | nil => rfl
  | cons a l =>
    simp only [headSp] at h
    simp [List.dropWhile, h]

theorem dropWhile_append_of_all (l1 l2 : List Char)
    (h : ∀ a ∈ l1, goIsSpace a = true) :
    (l1 ++ l2).dropWhile goIsSpace = l2.dropWhile goIsSpace := by
  induction l1 with
  | nil => rfl
  | cons a l ih =>
    simp only [List.cons_append, List.dropWhile,
      h a (List.mem_cons_self a l)]
    exact ih fun x hx => h x (List.mem_cons_of_mem a hx)

theorem goFields_words : ∀ (cs : List Char), ∀ w ∈ goFields cs,
    w ≠ [] ∧ ∀ c ∈ w, goIsSpace c = false := by
  intro cs
  induction cs using goFields.induct with
  | case1 => intro w hw; simp [goFields] at hw
  | case2 c rest h ih =>
    intro w hw
    rw [goFields, if_pos h] at hw
    exact ih w hw
  | case3 c rest h ih =>
    intro w hw
    rw [goFields, if_neg h] at hw
    rcases List.mem_cons.mp hw with hw | hw
    · subst hw
      refine ⟨by simp, ?_⟩
      intro x hx
      rcases List.mem_cons.mp hx with hx | hx
      · subst hx; simpa using h
      · have := List.mem_takeWhile_imp hx
        simpa using this
    · exact ih w hw

theorem goJoinSpace_cons_word (c : Char) (w : List Char)
    (ws : List (List Char)) :
    goJoinSpace ((c :: w) :: ws) = c :: goJoinSpace (w :: ws) := by
  cases ws with
  | nil => rfl
  | cons w2 ws => simp [goJoinSpace]

theorem goJoinSpace_ne_nil (w : List Char) (ws : List (List Char))
    (h : w ≠ []) : goJoinSpace (w :: ws) ≠ [] := by
  cases ws with
  | nil => exact h
  | cons w2 ws =>
    simp only [goJoinSpace]
    simp

theorem headSp_goJoinSpace (w : List Char) (ws : List (List Char))
    (hw : w ≠ []) (hns : ∀ c ∈ w, goIsSpace c = false) :
    headSp (goJoinSpace (w :: ws)) = false := by
  cases w with
  | nil => exact absurd rfl hw
  | cons x xs =>
    have hx : goIsSpace x = false := hns x (List.mem_cons_self x xs)
    cases ws with
    | nil => simpa [goJoinSpace, headSp] using hx
    | cons w2 ws => simpa [goJoinSpace, headSp] using hx

theorem lastSp_goJoinSpace : ∀ (ws : List (List Char)) (w : List Char),
    (∀ u ∈ w :: ws, u ≠ [] ∧ ∀ c ∈ u, goIsSpace c = false) →
    lastSp (goJoinSpace (w :: ws)) = false := by
  intro ws
  induction ws with
  | nil =>
    intro w hsh
    obtain ⟨hne, hns⟩ := hsh w (List.mem_cons_self w [])
    exact lastSp_no_space w hns
  | cons w2 ws ih =>
    intro w hsh
    have hsh2 : ∀ u ∈ w2 :: ws, u ≠ [] ∧ ∀ c ∈ u, goIsSpace c = false :=
      fun u hu => hsh u (List.mem_cons_of_mem w hu)
    have hJ2 : goJoinSpace (w2 :: ws) ≠ [] :=
      goJoinSpace_ne_nil w2 ws (hsh2 w2 (List.mem_cons_self w2 ws)).1
    show lastSp (w ++ ' ' :: goJoinSpace (w2 :: ws)) = false
    rw [lastSp_append w _ (by simp), lastSp_cons ' ' _ hJ2]
    exact ih w2 hsh2

theorem collapse_skeleton : ∀ (cs : List Char),
    collapseRuns cs = optLead cs ++ goJoinSpace (goFields cs) ++ optTrail cs := by
  intro cs
  induction cs using collapseRuns.induct with
  | case1 => simp [collapseRuns, goFields, goJoinSpace, optLead, optTrail, headSp]
  | case2 c rest h ih =>
    rw [collapseRuns, if_pos h]
    by_cases hf : goFields (rest.dropWhile goIsSpace) = []
    · have hall : ∀ x ∈ rest.dropWhile goIsSpace, goIsSpace x = true :=
        goFields_eq_nil _ hf
      have hnil : rest.dropWhile goIsSpace = [] := by
        have h2 := dropWhile_idem goIsSpace rest
        have h3 : (rest.dropWhile goIsSpace).dropWhile goIsSpace = [] :=
          List.dropWhile_eq_nil_iff.mpr hall
        rw [h2] at h3
        exact h3
      rw [hnil]
      have hfr : goFields rest = [] := by
        rw [← goFields_dropWhile rest, hnil]
        simp [goFields]
      have hfc : goFields (c :: rest) = [] := by
        rw [goFields, if_pos h]
        exact hfr
      simp [collapseRuns, optLead, optTrail, headSp, h, hfc, goJoinSpace]
    · have hne : rest.dropWhile goIsSpace ≠ [] := by
        intro h0
        rw [h0] at hf
        exact hf (by simp [goFields])
      have hrne : rest ≠ [] := by
        intro h0
        rw [h0] at hne
        exact hne rfl
      rw [ih]
      have hLead' : optLead (rest.dropWhile goIsSpace) = [] := by
        unfold optLead
        rw [headSp_dropWhile rest]
        rfl
      have hFieldsEq : goFields (c :: rest) = goFields (rest.dropWhile goIsSpace) := by
        rw [goFields_dropWhile rest, goFields, if_pos h]
      have hTrailEq : optTrail (c :: rest) = optTrail (rest.dropWhile goIsSpace) := by
        unfold optTrail
        rw [hFieldsEq, lastSp_cons c rest hrne, lastSp_dropWhile rest hne]
      have hLeadC : optLead (c :: rest) = [' '] := by
        unfold optLead
        simp [headSp, h]
      rw [hLead', hFieldsEq, hTrailEq, hLeadC]
      simp
  | case3 c rest h ih =>
    rw [collapseRuns, if_neg h, ih]
    have hnsp : goIsSpace c = false := by simpa using h
    have hLeadC : optLead (c :: rest) = [] := by
      unfold optLead
      simp [headSp, hnsp]
    cases rest with
    | nil =>
      simp [goFields, goJoinSpace, optLead, optTrail, headSp, lastSp, hnsp]
    | cons d ds =>
      have hrne : (d :: ds : List Char) ≠ [] := by simp
      by_cases hd : goIsSpace d = true
      · have hFieldsC : goFields (c :: d :: ds) = [c] :: goFields (d :: ds) := by
          rw [goFields, if_neg h]
          simp [List.takeWhile_cons, List.dropWhile_cons, hd]
        have hLead : optLead (d :: ds) = [' '] := by
          unfold optLead
          simp [headSp, hd]
        rw [hLead, hFieldsC, hLeadC]
        by_cases hf : goFields (d :: ds) = []
        · have hall := goFields_eq_nil _ hf
          have hTrailR : optTrail (d :: ds) = [] := by
            unfold optTrail
            rw [hf]
            rfl
          have hTrailC : optTrail (c :: d :: ds) = [' '] := by
            unfold optTrail
            rw [hFieldsC, hf, lastSp_cons c _ hrne, lastSp_all_space _ hrne hall]
            simp
          rw [hf, hTrailR, hTrailC]
          simp [goJoinSpace]
        · obtain ⟨w, ws, hws⟩ : ∃ w ws, goFields (d :: ds) = w :: ws := by
            cases hgf : goFields (d :: ds) with
            | nil => exact absurd hgf hf
            | cons w ws => exact ⟨w, ws, rfl⟩
          have hTrailEq : optTrail (c :: d :: ds) = optTrail (d :: ds) := by
            unfold optTrail
            rw [hFieldsC, lastSp_cons c _ hrne, hws]
            simp
          rw [hws, hTrailEq]
          have hjs : goJoinSpace ([c] :: w :: ws) =
              [c] ++ ' ' :: goJoinSpace (w :: ws) := rfl
          rw [hjs]
          simp [goJoinSpace]
      · have hdns : goIsSpace d = false := by simpa using hd
        have hgr : goFields (d :: ds) =
            (d :: ds.takeWhile (fun x => ¬ goIsSpace x)) ::
              goFields (ds.dropWhile (fun x => ¬ goIsSpace x)) := by
          rw [goFields, if_neg hd]
        have hgc : goFields (c :: d :: ds) =
            (c :: d :: ds.takeWhile (fun x => ¬ goIsSpace x)) ::
              goFields (ds.dropWhile (fun x => ¬ goIsSpace x)) := by
          rw [goFields, if_neg h]
          simp [List.takeWhile_cons, List.dropWhile_cons, hdns]
        have hLeadR : optLead (d :: ds) = [] := by
          unfold optLead
          simp [headSp, hdns]
        have hTrailEq : optTrail (c :: d :: ds) = optTrail (d :: ds) := by
          unfold optTrail
          rw [hgc, hgr, lastSp_cons c _ hrne]
          simp
        rw [hLeadC, hLeadR, hgc, hgr, hTrailEq]
        simp only [goJoinSpace_cons_word]
        simp

theorem trimRight_of_lastSp_false (l : List Char) (h : lastSp l = false) :
    trimRight l = l := by
  unfold trimRight
  unfold lastSp at h
  rw [dropWhile_of_headSp_false l.reverse h, List.reverse_reverse]

theorem normalizeSpecC_eq_join (cs : List Char) :
    normalizeSpecC cs = goJoinSpace (goFields cs) := by
  unfold normalizeSpecC
  rw [collapse_skeleton cs]
  by_cases hf : goFields cs = []
  · rw [hf]
    have hT : optTrail cs = [] := by
      unfold optTrail
      rw [hf]
      simp
    rw [hT]
    unfold optLead
    by_cases hh : headSp cs = true
    · rw [if_pos hh]
      simp [trimLeft, trimRight, List.dropWhile, goIsSpace, goJoinSpace]
    · rw [if_neg hh]
      simp [trimLeft, trimRight, goJoinSpace]
  · obtain ⟨w, ws, hws⟩ : ∃ w ws, goFields cs = w :: ws := by
      cases hgf : goFields cs with
      | nil => exact absurd hgf hf
      | cons w ws => exact ⟨w, ws, rfl⟩
    have hsh : ∀ u ∈ w :: ws, u ≠ [] ∧ ∀ c ∈ u, goIsSpace c = false := by
      rw [← hws]
      exact goFields_words cs
    have hwne : w ≠ [] := (hsh w (List.mem_cons_self w ws)).1
    have hJne : goJoinSpace (w :: ws) ≠ [] := goJoinSpace_ne_nil w ws hwne
    have hJhead : headSp (goJoinSpace (w :: ws)) = false :=
      headSp_goJoinSpace w ws hwne (hsh w (List.mem_cons_self w ws)).2
    have hJlast : lastSp (goJoinSpace (w :: ws)) = false :=
      lastSp_goJoinSpace ws w hsh
    rw [hws]
    have hhead : headSp (goJoinSpace (w :: ws) ++ optTrail cs) = false := by
      rw [headSp_append _ _ hJne]
      exact hJhead
    have hL : trimLeft (optLead cs ++ goJoinSpace (w :: ws) ++ optTrail cs) =
        goJoinSpace (w :: ws) ++ optTrail cs := by
      unfold trimLeft optLead
      by_cases hh : headSp cs = true
      · rw [if_pos hh, List.append_assoc]
        rw [dropWhile_append_of_all [' '] _ (by
          intro a ha
          simp only [List.mem_singleton] at ha
          subst ha
          decide)]
        exact dropWhile_of_headSp_false _ hhead
      · rw [if_neg hh, List.nil_append]
        exact dropWhile_of_headSp_false _ hhead
    rw [hL]
    have hTcases : optTrail cs = [] ∨ optTrail cs = [' '] := by
      unfold optTrail
      split
      · exact Or.inl rfl
      · split
        · exact Or.inr rfl
        · exact Or.inl rfl
    rcases hTcases with hT | hT
    · rw [hT, List.append_nil]
      exact trimRight_of_lastSp_false _ hJlast
    · rw [hT]
      unfold trimRight
      rw [List.reverse_append]
      have hrev1 : ([' '] : List Char).reverse = [' '] := rfl
      rw [hrev1]
      rw [dropWhile_append_of_all [' '] _ (by
        intro a ha
        simp only [List.mem_singleton] at ha
        subst ha
        decide)]
      unfold lastSp at hJlast
      rw [dropWhile_of_headSp_false _ hJlast, List.reverse_reverse]

theorem takeWhile_map_nl : ∀ (cs : List Char),
    (cs.map (fun c => if c = '\n' then ' ' else c)).takeWhile
        (fun d => ¬ goIsSpace d) =
      cs.takeWhile (fun d => ¬ goIsSpace d) := by
  intro cs
  induction cs with
  | nil => rfl
  | cons a l ih =>
    have hfa : goIsSpace (if a = '\n' then ' ' else a) = goIsSpace a := by
      by_cases hc : a = '\n'
      · rw [if_pos hc, hc]
        decide
      · rw [if_neg hc]
    by_cases ha : goIsSpace a = true
    · simp [List.takeWhile_cons, hfa, ha]
    · have hfaeq : (if a = '\n' then ' ' else a) = a := by
        rw [if_neg (fun h0 => ha (by rw [h0]; decide))]
      simp only [List.map_cons, List.takeWhile_cons, hfa, ha, hfaeq]
      simp only [Bool.not_false, decide_not]
      simpa using ih

theorem dropWhile_map_nl : ∀ (cs : List Char),
    (cs.map (fun c => if c = '\n' then ' ' else c)).dropWhile
        (fun d => ¬ goIsSpace d) =
      (cs.dropWhile (fun d => ¬ goIsSpace d)).map
        (fun c => if c = '\n' then ' ' else c) := by
  intro cs
  induction cs with
  | nil => rfl
  | cons a l ih =>
    have hfa : goIsSpace (if a = '\n' then ' ' else a) = goIsSpace a := by
      by_cases hc : a = '\n'
      · rw [if_pos hc, hc]
        decide
      · rw [if_neg hc]
    by_cases ha : goIsSpace a = true
    · simp [List.dropWhile_cons, hfa, ha]
    · simp [List.dropWhile_cons, hfa, ha]
      simpa using ih

theorem goFields_replace : ∀ (cs : List Char),
    goFields (goReplaceNl cs) = goFields cs := by
  intro cs
  induction cs using goFields.induct with
  | case1 => rfl
  | case2 c rest h ih =>
    simp only [goReplaceNl, List.map_cons] at ih ⊢
    have hfc : goIsSpace (if c = '\n' then ' ' else c) = true := by
      by_cases hc : c = '\n'
      · rw [if_pos hc]
        decide
      · rw [if_neg hc]
        exact h
    have e1 : goFields ((if c = '\n' then ' ' else c) ::
        rest.map (fun c => if c = '\n' then ' ' else c)) =
        goFields (rest.map (fun c => if c = '\n' then ' ' else c)) := by
      rw [goFields, if_pos hfc]
    have e2 : goFields (c :: rest) = goFields rest := by
      rw [goFields, if_pos h]
    rw [e1, e2, ih]
  | case3 c rest h ih =>
    simp only [goReplaceNl, List.map_cons] at ih ⊢
    have hnsp : goIsSpace c = false := by simpa using h
    have hcnl : c ≠ '\n' := by
      intro h0
      subst h0
      exact absurd hnsp (by decide)
    rw [if_neg hcnl]
    have e1 : goFields (c :: rest.map (fun c => if c = '\n' then ' ' else c)) =
        (c :: (rest.map (fun c => if c = '\n' then ' ' else c)).takeWhile
          (fun d => ¬ goIsSpace d)) ::
        goFields ((rest.map (fun c => if c = '\n' then ' ' else c)).dropWhile
          (fun d => ¬ goIsSpace d)) := by
      rw [goFields, if_neg h]
    have e2 : goFields (c :: rest) =
        (c :: rest.takeWhile (fun d => ¬ goIsSpace d)) ::
        goFields (rest.dropWhile (fun d => ¬ goIsSpace d)) := by
      rw [goFields, if_neg h]
    rw [e1, e2, takeWhile_map_nl, dropWhile_map_nl, ih]

theorem compactC_eq_normalizeSpecC (cs : List Char) :
    compactC cs = normalizeSpecC cs := by
  unfold compactC
  rw [goFields_replace, normalizeSpecC_eq_join]

theorem compact_eq_normalizeSpec (s : String) : compact s = normalizeSpec s := by
  unfold compact normalizeSpec
  rw [compactC_eq_normalizeSpecC]

/-- C9: The query text rendered in every emitted event is the
normalization of the original: `compact` equals the spec's normalizer
(all whitespace runs, newlines and tabs included, collapsed to single
spaces and the result trimmed — a single-line form), and every event
`log` emits carries exactly that normalized text in its `sql` field. -/
theorem events_sql_normalized (t : Option Tracer) (n : Nat) (kind q : String)
    (args : List NamedValue) (dur : Int) (err : Option DrvErr) :
    compact q = normalizeSpec q ∧
    ∀ ev ∈ (tracedConn.log t n kind q args dur err).1,
      ev.sql = normalizeSpec q := by
  refine ⟨compact_eq_normalizeSpec q, ?_⟩
  intro ev hev
  cases t with
  | none => simp [tracedConn.log] at hev
  | some tc =>
    cases err with
    | some e =>
      simp only [tracedConn.log, List.mem_singleton] at hev
      rw [hev]
      exact compact_eq_normalizeSpec q
    | none =>
      by_cases hc : tc.SlowThresh ≤ 0 ∨ dur < tc.SlowThresh
      · simp [tracedConn.log, hc] at hev
      · rcases hs : tracedConn.sampled tc n with ⟨b, n'⟩
        cases b
        · simp [tracedConn.log, hc, hs] at hev
        · simp [tracedConn.log, hc, hs] at hev
          rw [hev]
          exact compact_eq_normalizeSpec q

/-- Witness for C9: a concrete multi-line, multiply-spaced query is
rendered single-line in the emitted error event. -/
theorem events_sql_normalized_witness :
    compact "  SELECT *\n FROM\t t  " = normalizeSpec "  SELECT *\n FROM\t t  " ∧
    (⟨true, "db.query.error", "exec", compact "  SELECT *\n FROM\t t  ",
        some (maskArgs [] false), 5, some (DrvErr.mk "bad").text⟩ : LogEvent).sql =
      normalizeSpec "  SELECT *\n FROM\t t  " :=
  ⟨(events_sql_normalized (some ⟨0, false, 0⟩) 0 "exec" "  SELECT *\n FROM\t t  "
      [] 5 (some (.mk "bad"))).1,
   (events_sql_normalized (some ⟨0, false, 0⟩) 0 "exec" "  SELECT *\n FROM\t t  "
      [] 5 (some (.mk "bad"))).2 _ (List.mem_singleton_self _)⟩

end Adequate
